import Mathlib

/-!
Verification of the streaming relay and incremental segmentation engine of the
`1-2-cloudflare-worker` repository (the `chatStream` subscription resolver).

Strings are modelled as lists of characters (`List Char`); all the characters
the patterns inspect are in the BMP, so character indexing agrees with the
JavaScript UTF-16 code-unit indexing used by `String.prototype.match` and
`substring` on the inputs the claims concern.
-/

namespace Worker

/-- The character class of the CJK break regex `[。？！\n]`. -/
def isCjkBreak (c : Char) : Bool :=
  c = '。' || c = '？' || c = '！' || c = '\n'

/-- The character class `[.?!]` of the Latin break regex. -/
def isLatinPunct (c : Char) : Bool :=
  c = '.' || c = '?' || c = '!'

/-- The JavaScript regex class `\s` (also the set trimmed by `String.trim`):
WhiteSpace and LineTerminator code points. -/
def isJsWhitespace (c : Char) : Bool :=
  c = ' ' || c = '\t' || c = '\n' || c = '\r' ||
  c = '\u000B' || c = '\u000C' || c = '\u00A0' || c = '\u1680' ||
  ('\u2000' ≤ c && c ≤ '\u200A') || c = '\u2028' || c = '\u2029' ||
  c = '\u202F' || c = '\u205F' || c = '\u3000' || c = '\uFEFF'

/-- `messageBuffer.match(/[。？！\n]/)`: index of the leftmost match of the
CJK break class, if any. -/
def cjkMatchIdx : List Char → Option Nat
  | [] => none
  | c :: rest =>
      if isCjkBreak c then some 0
      else (cjkMatchIdx rest).map (· + 1)

/-- One attempt of the regex `[.?!]\s|\n` at a fixed position: the engine tries
the alternative `[.?!]\s` first, then the bare `\n`; returns the matched
length. -/
def matchAt (c : Char) : List Char → Option Nat
  | d :: _ =>
      if isLatinPunct c && isJsWhitespace d then some 2
      else if c = '\n' then some 1 else none
  | [] => if c = '\n' then some 1 else none

/-- `messageBuffer.match(/[.?!]\s|\n/)`: leftmost match of the Latin break
regex, returned as (index, matched length). -/
def enMatch : List Char → Option (Nat × Nat)
  | [] => none
  | c :: rest =>
      match matchAt c rest with
      | some n => some (0, n)
      | none => (enMatch rest).map (fun p => (p.1 + 1, p.2))

/-- The break selection of the inner loop: `breakPos`/`breakSize` are taken
from the CJK match when it exists (with `breakSize = 1`), otherwise from the
Latin match; `none` models `breakPos === -1`. -/
def findBreak (l : List Char) : Option (Nat × Nat) :=
  match cjkMatchIdx l with
  | some i => some (i, 1)
  | none => enMatch l

/-- The inner `while (true)` scanning loop, with explicit fuel: each found
break slices off `messageBuffer.substring(0, breakPos + breakSize)` as a
segment and keeps scanning the tail.  `l.length` fuel always suffices since
each iteration removes at least one character. -/
def scanSegmentsFuel : Nat → List Char → List (List Char) × List Char
  | 0, l => ([], l)
  | fuel + 1, l =>
      match findBreak l with
      | none => ([], l)
      | some ps =>
          let r := scanSegmentsFuel fuel (l.drop (ps.1 + ps.2))
          (l.take (ps.1 + ps.2) :: r.1, r.2)

/-- The inner scanning loop on a working buffer: returns the completed
segments (in order) and the retained remainder. -/
def scanSegments (l : List Char) : List (List Char) × List Char :=
  scanSegmentsFuel l.length l

/-- One pass of the segmenter: the working buffer is
`remainder ++ fragment` (`messageBuffer += chunk`). -/
def feed (remainder fragment : List Char) : List (List Char) × List Char :=
  scanSegments (remainder ++ fragment)

/-- The outer read loop restricted to its text effect: feed each decoded
chunk in turn, accumulating emitted segments and threading the remainder. -/
def processChunks : List Char → List (List Char) → List (List Char) × List Char
  | rem, [] => ([], rem)
  | rem, c :: cs =>
      let p := feed rem c
      let q := processChunks p.2 cs
      (p.1 ++ q.1, q.2)

/-- A whole successful stream: all segments emitted during the read loop,
followed by the end-of-stream flush `if (messageBuffer) push(...)`, which
pushes the remainder only when it is non-empty. -/
def runSegmentation (chunks : List (List Char)) : List (List Char) :=
  if (processChunks [] chunks).2 = [] then (processChunks [] chunks).1
  else (processChunks [] chunks).1 ++ [(processChunks [] chunks).2]

/- ### Basic facts about the break search -/

theorem cjkMatchIdx_some_decomp {l : List Char} {i : Nat}
    (h : cjkMatchIdx l = some i) :
    ∃ pre c suf, l = pre ++ c :: suf ∧ pre.length = i ∧ isCjkBreak c = true := by
  induction l generalizing i with
  | nil => simp [cjkMatchIdx] at h
  | cons a rest ih =>
      by_cases ha : isCjkBreak a
      · simp [cjkMatchIdx, ha] at h
        exact ⟨[], a, rest, by simp, by simp [← h], ha⟩
      · simp [cjkMatchIdx, ha] at h
        obtain ⟨j, hj, hji⟩ := h
        obtain ⟨pre, c, suf, hdec, hlen, hc⟩ := ih hj
        exact ⟨a :: pre, c, suf, by simp [hdec], by simp [hlen, ← hji], hc⟩

theorem cjkMatchIdx_none_iff {l : List Char} :
    cjkMatchIdx l = none ↔ ∀ c ∈ l, isCjkBreak c = false := by
  induction l with
  | nil => simp [cjkMatchIdx]
  | cons a rest ih =>
      by_cases ha : isCjkBreak a = true
      · constructor
        · intro h; simp [cjkMatchIdx, ha] at h
        · intro h; exact absurd (h a (List.mem_cons_self a rest)) (by simp [ha])
      · have ha' : isCjkBreak a = false := by simpa using ha
        have hstep : cjkMatchIdx (a :: rest) = (cjkMatchIdx rest).map (· + 1) := by
          simp [cjkMatchIdx, ha']
        rw [hstep, Option.map_eq_none']
        constructor
        · intro h c hc
          rcases List.mem_cons.mp hc with rfl | hc
          · exact ha'
          · exact ih.mp h c hc
        · intro h
          exact ih.mpr fun c hc => h c (List.mem_cons_of_mem a hc)

theorem matchAt_spec {c : Char} {rest : List Char} {n : Nat}
    (h : matchAt c rest = some n) :
    (n = 2 ∧ ∃ d tl, rest = d :: tl ∧ isLatinPunct c = true ∧
        isJsWhitespace d = true) ∨
    (n = 1 ∧ c = '\n') := by
  cases rest with
  | nil =>
      by_cases hnl : c = '\n'
      · simp [matchAt, hnl] at h
        right
        exact ⟨by omega, hnl⟩
      · simp [matchAt, hnl] at h
  | cons d tl =>
      by_cases hc : (isLatinPunct c && isJsWhitespace d) = true
      · simp only [Bool.and_eq_true] at hc
        have hstep : matchAt c (d :: tl) = some 2 := by
          simp [matchAt, hc.1, hc.2]
        rw [hstep] at h
        left
        exact ⟨(Option.some_inj.mp h).symm, d, tl, rfl, hc.1, hc.2⟩
      · by_cases hnl : c = '\n'
        · simp [matchAt, isLatinPunct, hnl] at h
          right
          exact ⟨by omega, hnl⟩
        · simp [matchAt, hc, hnl] at h

theorem enMatch_some_decomp {l : List Char} {i n : Nat}
    (h : enMatch l = some (i, n)) :
    (n = 2 ∧ ∃ pre a b suf, l = pre ++ a :: b :: suf ∧ pre.length = i ∧
        isLatinPunct a = true ∧ isJsWhitespace b = true) ∨
    (n = 1 ∧ ∃ pre suf, l = pre ++ '\n' :: suf ∧ pre.length = i) := by
  induction l generalizing i n with
  | nil => simp [enMatch] at h
  | cons a rest ih =>
      rw [show enMatch (a :: rest) = (match matchAt a rest with
            | some m => some (0, m)
            | none => (enMatch rest).map (fun p => (p.1 + 1, p.2))) from rfl] at h
      cases hm : matchAt a rest with
      | some m =>
          rw [hm] at h
          simp only [Option.some_inj, Prod.mk.injEq] at h
          obtain ⟨hi, hn⟩ := h
          rcases matchAt_spec hm with ⟨hm2, d, tl, hrest, hp, hw⟩ | ⟨hm1, hnl⟩
          · left
            exact ⟨by omega, [], a, d, tl, by simp [hrest], by simp [← hi],
              hp, hw⟩
          · right
            exact ⟨by omega, [], rest, by simp [hnl], by simp [← hi]⟩
      | none =>
          rw [hm] at h
          cases he : enMatch rest with
          | none => rw [he] at h; simp at h
          | some q =>
              obtain ⟨j, m⟩ := q
              rw [he] at h
              simp only [Option.map_some', Option.some_inj, Prod.mk.injEq] at h
              obtain ⟨hi, hn⟩ := h
              rcases ih he with ⟨hm2, pre, x, y, suf, hdec, hlen, hx, hy⟩ |
                ⟨hm1, pre, suf, hdec, hlen⟩
              · left
                refine ⟨by omega, a :: pre, x, y, suf, by simp [hdec], ?_, hx, hy⟩
                simp only [List.length_cons]
                omega
              · right
                refine ⟨by omega, a :: pre, suf, by simp [hdec], ?_⟩
                simp only [List.length_cons]
                omega

theorem findBreak_nil : findBreak [] = none := rfl

theorem findBreak_bounds {l : List Char} {p s : Nat}
    (h : findBreak l = some (p, s)) : 1 ≤ s ∧ p + s ≤ l.length := by
  unfold findBreak at h
  cases hc : cjkMatchIdx l with
  | some i =>
      rw [hc] at h
      simp only [Option.some_inj, Prod.mk.injEq] at h
      obtain ⟨hp, hs⟩ := h
      obtain ⟨pre, c, suf, hdec, hlen, _⟩ := cjkMatchIdx_some_decomp hc
      subst hdec
      simp only [List.length_append, List.length_cons]
      omega
  | none =>
      rw [hc] at h
      rcases enMatch_some_decomp h with
        ⟨hn, pre, a, b, suf, hdec, hlen, _, _⟩ | ⟨hn, pre, suf, hdec, hlen⟩
      · subst hdec
        simp only [List.length_append, List.length_cons]
        omega
      · subst hdec
        simp only [List.length_append, List.length_cons]
        omega

/- ### Facts about the scanning loop -/

theorem take_append_len_add (pre l2 : List Char) (k : Nat) :
    (pre ++ l2).take (pre.length + k) = pre ++ l2.take k := by
  induction pre with
  | nil => simp
  | cons x xs ih =>
      simp only [List.cons_append, List.length_cons]
      rw [show xs.length + 1 + k = (xs.length + k) + 1 from by omega]
      simp only [List.take_succ_cons, ih]

theorem scanSegmentsFuel_join :
    ∀ fuel (l : List Char),
      (scanSegmentsFuel fuel l).1.flatten ++ (scanSegmentsFuel fuel l).2 = l := by
  intro fuel
  induction fuel with
  | zero => intro l; simp [scanSegmentsFuel]
  | succ k ih =>
      intro l
      cases hf : findBreak l with
      | none => simp [scanSegmentsFuel, hf]
      | some ps =>
          simp only [scanSegmentsFuel, hf, List.flatten_cons]
          rw [List.append_assoc, ih]
          exact List.take_append_drop _ l

theorem scanSegments_join (l : List Char) :
    (scanSegments l).1.flatten ++ (scanSegments l).2 = l :=
  scanSegmentsFuel_join l.length l

theorem scanSegmentsFuel_ne_nil :
    ∀ fuel (l : List Char), ∀ s ∈ (scanSegmentsFuel fuel l).1, s ≠ [] := by
  intro fuel
  induction fuel with
  | zero => intro l s hs; simp [scanSegmentsFuel] at hs
  | succ k ih =>
      intro l s hs
      cases hf : findBreak l with
      | none => simp [scanSegmentsFuel, hf] at hs
      | some ps =>
          obtain ⟨p, sz⟩ := ps
          simp only [scanSegmentsFuel, hf, List.mem_cons] at hs
          rcases hs with rfl | hs
          · obtain ⟨h1, hb⟩ := findBreak_bounds hf
            intro hnil
            have hlen : (l.take (p + sz)).length = 0 := by rw [hnil]; rfl
            rw [List.length_take] at hlen
            omega
          · exact ih _ s hs

theorem scanSegments_ne_nil (l : List Char) :
    ∀ s ∈ (scanSegments l).1, s ≠ [] :=
  scanSegmentsFuel_ne_nil l.length l

theorem scanSegments_head {l : List Char} {ps : Nat × Nat}
    (h : findBreak l = some ps) :
    (scanSegments l).1.head? = some (l.take (ps.1 + ps.2)) := by
  obtain ⟨p, sz⟩ := ps
  obtain ⟨h1, hb⟩ := findBreak_bounds h
  obtain ⟨k, hk⟩ : ∃ k, l.length = k + 1 := ⟨l.length - 1, by omega⟩
  unfold scanSegments
  rw [hk]
  simp [scanSegmentsFuel, h]

/-- A completed segment ends at a detected boundary: last character in the
CJK class, or last two characters Latin punctuation followed by whitespace. -/
def endsAtBoundary (s : List Char) : Bool :=
  match s.reverse with
  | [] => false
  | c :: rest =>
      isCjkBreak c ||
      (isJsWhitespace c &&
        match rest with
        | a :: _ => isLatinPunct a
        | [] => false)

theorem endsAtBoundary_append_single (pre : List Char) (c : Char)
    (hc : isCjkBreak c = true) :
    endsAtBoundary (pre ++ [c]) = true := by
  simp [endsAtBoundary, List.reverse_append, hc]

theorem endsAtBoundary_append_pair (pre : List Char) (a b : Char) :
    endsAtBoundary (pre ++ [a, b]) =
      (isCjkBreak b || (isJsWhitespace b && isLatinPunct a)) := by
  simp [endsAtBoundary, List.reverse_append]

theorem endsAtBoundary_take_break {l : List Char} {ps : Nat × Nat}
    (hf : findBreak l = some ps) :
    endsAtBoundary (l.take (ps.1 + ps.2)) = true := by
  obtain ⟨p, sz⟩ := ps
  unfold findBreak at hf
  cases hc : cjkMatchIdx l with
  | some i =>
      rw [hc] at hf
      simp only [Option.some_inj, Prod.mk.injEq] at hf
      obtain ⟨hp, hsz⟩ := hf
      obtain ⟨pre, c, suf, hdec, hlen, hcb⟩ := cjkMatchIdx_some_decomp hc
      subst hdec
      subst hp
      subst hsz
      rw [← hlen, take_append_len_add]
      simp only [List.take_succ_cons, List.take_zero]
      exact endsAtBoundary_append_single pre c hcb
  | none =>
      rw [hc] at hf
      rcases enMatch_some_decomp hf with
        ⟨hn, pre, a, b, suf, hdec, hlen, hp, hw⟩ | ⟨hn, pre, suf, hdec, hlen⟩
      · subst hdec
        subst hn
        rw [← hlen, take_append_len_add]
        simp only [List.take_succ_cons, List.take_zero]
        rw [endsAtBoundary_append_pair]
        simp [hp, hw]
      · exfalso
        have hmem : ('\n' : Char) ∈ l := by subst hdec; simp
        have := cjkMatchIdx_none_iff.mp hc '\n' hmem
        simp [isCjkBreak] at this

theorem scanSegmentsFuel_ends :
    ∀ fuel (l : List Char), ∀ s ∈ (scanSegmentsFuel fuel l).1,
      endsAtBoundary s = true := by
  intro fuel
  induction fuel with
  | zero => intro l s hs; simp [scanSegmentsFuel] at hs
  | succ k ih =>
      intro l s hs
      cases hf : findBreak l with
      | none => simp [scanSegmentsFuel, hf] at hs
      | some ps =>
          simp only [scanSegmentsFuel, hf, List.mem_cons] at hs
          rcases hs with rfl | hs
          · exact endsAtBoundary_take_break hf
          · exact ih _ s hs

theorem latin_bare_newline_unused {l : List Char} {p sz : Nat}
    (hc : cjkMatchIdx l = none) (hf : findBreak l = some (p, sz)) : sz = 2 := by
  unfold findBreak at hf
  rw [hc] at hf
  rcases enMatch_some_decomp hf with
    ⟨hn, _, _, _, _, _, _, _, _⟩ | ⟨hn, pre, suf, hdec, hlen⟩
  · exact hn
  · exfalso
    have hmem : ('\n' : Char) ∈ l := by subst hdec; simp
    have := cjkMatchIdx_none_iff.mp hc '\n' hmem
    simp [isCjkBreak] at this

/- ### The outer read loop accumulated over a whole stream -/

theorem processChunks_flatten :
    ∀ (chunks : List (List Char)) (rem : List Char),
      (processChunks rem chunks).1.flatten ++ (processChunks rem chunks).2 =
        rem ++ chunks.flatten := by
  intro chunks
  induction chunks with
  | nil => intro rem; simp [processChunks]
  | cons c cs ih =>
      intro rem
      show ((feed rem c).1 ++ (processChunks (feed rem c).2 cs).1).flatten ++
          (processChunks (feed rem c).2 cs).2 = rem ++ (c :: cs).flatten
      calc ((feed rem c).1 ++ (processChunks (feed rem c).2 cs).1).flatten ++
            (processChunks (feed rem c).2 cs).2
          = (feed rem c).1.flatten ++
              ((processChunks (feed rem c).2 cs).1.flatten ++
                (processChunks (feed rem c).2 cs).2) := by
            rw [List.flatten_append, List.append_assoc]
        _ = (feed rem c).1.flatten ++ ((feed rem c).2 ++ cs.flatten) := by
            rw [ih]
        _ = ((feed rem c).1.flatten ++ (feed rem c).2) ++ cs.flatten := by
            rw [List.append_assoc]
        _ = (rem ++ c) ++ cs.flatten := by
            rw [show (feed rem c).1.flatten ++ (feed rem c).2 = rem ++ c from
              scanSegments_join (rem ++ c)]
        _ = rem ++ (c :: cs).flatten := by
            rw [List.flatten_cons, List.append_assoc]

theorem processChunks_ne_nil :
    ∀ (chunks : List (List Char)) (rem : List Char),
      ∀ s ∈ (processChunks rem chunks).1, s ≠ [] := by
  intro chunks
  induction chunks with
  | nil => intro rem s hs; simp [processChunks] at hs
  | cons c cs ih =>
      intro rem s hs
      simp only [processChunks, List.mem_append] at hs
      rcases hs with hs | hs
      · exact scanSegments_ne_nil (rem ++ c) s hs
      · exact ih _ s hs

theorem runSegmentation_ne_nil (chunks : List (List Char)) :
    ∀ s ∈ runSegmentation chunks, s ≠ [] := by
  intro s hs
  unfold runSegmentation at hs
  by_cases hrem : (processChunks [] chunks).2 = []
  · rw [if_pos hrem] at hs
    exact processChunks_ne_nil chunks [] s hs
  · rw [if_neg hrem] at hs
    rcases List.mem_append.mp hs with hs | hs
    · exact processChunks_ne_nil chunks [] s hs
    · rw [List.mem_singleton.mp hs]
      exact hrem

/- ### The producer of the chatStream subscription -/

/-- The `input` argument of the subscription: `{ message: String }`. -/
structure ChatInput where
  message : List Char

/-- A thrown JavaScript error as the catch block inspects it: its `name`
(used for the `AbortError` test) and its `message`. -/
structure JsError where
  name : List Char
  message : List Char

/-- The upstream `fetch` response as the producer consumes it: the status
check, the best-effort decoded error payload (`none` models a failed
`response.json()`), and on the success path the decoded text chunks of the
body, optionally terminated by a thrown read error instead of `done`. -/
structure UpstreamResponse where
  ok : Bool
  status : Nat
  statusText : List Char
  errorPayloadMessage : Option (List Char)
  chunks : List (List Char)
  readError : Option JsError

/-- The outcome of the `fetch` call itself: a response, or a rejection (for
example the abort of the request). -/
inductive FetchOutcome where
  | success (r : UpstreamResponse)
  | failure (e : JsError)

/-- Observable actions of the producer, in order: pushed events, `stop()`
calls, the `fetch` call, `getReader()`, and `releaseLock()`. -/
inductive Ev where
  | push (msg : List Char)
  | stopCall
  | fetchCall
  | getReader
  | releaseLock
deriving DecidableEq

/-- JavaScript `String.prototype.trim`. -/
def jsTrim (l : List Char) : List Char :=
  ((l.dropWhile isJsWhitespace).reverse.dropWhile isJsWhitespace).reverse

def emptyInputMsg : List Char := "错误：消息内容不能为空".data

def abortName : List Char := "AbortError".data

/-- The best-effort error detail
`` `${errorData.error?.message || response.statusText}` `` (a missing or falsy
payload message falls back to the status text). -/
def upstreamErrorDetail (r : UpstreamResponse) : List Char :=
  match r.errorPayloadMessage with
  | some m => if m = [] then r.statusText else m
  | none => r.statusText

/-- The non-success diagnostic
`` `API错误: ${response.status} - ${errorData.error?.message || response.statusText}` ``. -/
def upstreamErrorMsg (r : UpstreamResponse) : List Char :=
  "API错误: ".data ++ (toString r.status).data ++ " - ".data ++
    upstreamErrorDetail r

/-- The mid-stream diagnostic
`` `服务错误: ${error.message || "未知错误"}` ``. -/
def serviceErrorMsg (e : JsError) : List Char :=
  "服务错误: ".data ++ (if e.message = [] then "未知错误".data else e.message)

/-- The streaming section (lines 137-184): acquire the reader, push every
completed segment of every chunk in order; on a clean `done`, flush a
non-empty remainder and release the lock; on a thrown read error, the
`finally` releases the lock, then the catch pushes one diagnostic unless the
error is the abort, and calls `stop()`. -/
def streamBody (r : UpstreamResponse) : List Ev :=
  Ev.getReader ::
    ((processChunks [] r.chunks).1.map Ev.push ++
      match r.readError with
      | none =>
          (if (processChunks [] r.chunks).2 = [] then []
           else [Ev.push (processChunks [] r.chunks).2]) ++ [Ev.releaseLock]
      | some e =>
          Ev.releaseLock ::
            ((if e.name = abortName then [] else [Ev.push (serviceErrorMsg e)]) ++
              [Ev.stopCall]))

/-- The whole producer body of `chatStream.subscribe`: validation, the
upstream call, the status check, and the streaming section, as the ordered
list of its observable actions. -/
def chatStreamProducer (input : ChatInput) (f : FetchOutcome) : List Ev :=
  if jsTrim input.message = [] then [Ev.push emptyInputMsg, Ev.stopCall]
  else
    Ev.fetchCall ::
      match f with
      | FetchOutcome.failure e =>
          (if e.name = abortName then [] else [Ev.push (serviceErrorMsg e)]) ++
            [Ev.stopCall]
      | FetchOutcome.success r =>
          if r.ok then streamBody r
          else [Ev.push (upstreamErrorMsg r), Ev.stopCall]

/-- The subsequence of pushed event payloads of a trace. -/
def pushes (t : List Ev) : List (List Char) :=
  t.filterMap fun e =>
    match e with
    | Ev.push m => some m
    | _ => none

/-- How many times the trace releases the reader lock. -/
def countRelease (t : List Ev) : Nat :=
  t.countP fun e =>
    match e with
    | Ev.releaseLock => true
    | _ => false

theorem pushes_append (t u : List Ev) :
    pushes (t ++ u) = pushes t ++ pushes u := by
  simp [pushes]

theorem pushes_map_push (segs : List (List Char)) :
    pushes (segs.map Ev.push) = segs := by
  induction segs with
  | nil => rfl
  | cons a t ih => simpa [pushes, List.filterMap_cons] using ih

theorem pushes_nil : pushes [] = [] := rfl

theorem pushes_cons_push (m : List Char) (t : List Ev) :
    pushes (Ev.push m :: t) = m :: pushes t := rfl

theorem pushes_cons_stop (t : List Ev) :
    pushes (Ev.stopCall :: t) = pushes t := rfl

theorem pushes_cons_fetch (t : List Ev) :
    pushes (Ev.fetchCall :: t) = pushes t := rfl

theorem pushes_cons_getReader (t : List Ev) :
    pushes (Ev.getReader :: t) = pushes t := rfl

theorem pushes_cons_release (t : List Ev) :
    pushes (Ev.releaseLock :: t) = pushes t := rfl

theorem countRelease_append (t u : List Ev) :
    countRelease (t ++ u) = countRelease t + countRelease u := by
  simp [countRelease, List.countP_append]

theorem countRelease_map_push (segs : List (List Char)) :
    countRelease (segs.map Ev.push) = 0 := by
  induction segs with
  | nil => rfl
  | cons a t ih => simp [countRelease, List.countP_cons] at ih ⊢

theorem countRelease_nil : countRelease [] = 0 := rfl

theorem countRelease_cons_push (m : List Char) (t : List Ev) :
    countRelease (Ev.push m :: t) = countRelease t := by
  simp [countRelease, List.countP_cons]

theorem countRelease_cons_stop (t : List Ev) :
    countRelease (Ev.stopCall :: t) = countRelease t := by
  simp [countRelease, List.countP_cons]

theorem countRelease_cons_fetch (t : List Ev) :
    countRelease (Ev.fetchCall :: t) = countRelease t := by
  simp [countRelease, List.countP_cons]

theorem countRelease_cons_getReader (t : List Ev) :
    countRelease (Ev.getReader :: t) = countRelease t := by
  simp [countRelease, List.countP_cons]

theorem countRelease_cons_release (t : List Ev) :
    countRelease (Ev.releaseLock :: t) = countRelease t + 1 := by
  simp [countRelease, List.countP_cons]

theorem dropWhile_all_ws (l : List Char)
    (h : ∀ c ∈ l, isJsWhitespace c = true) :
    l.dropWhile isJsWhitespace = [] := by
  induction l with
  | nil => rfl
  | cons a t ih =>
      rw [List.dropWhile_cons_of_pos (h a (List.mem_cons_self a t))]
      exact ih fun c hc => h c (List.mem_cons_of_mem a hc)

theorem jsTrim_all_ws (l : List Char)
    (h : ∀ c ∈ l, isJsWhitespace c = true) : jsTrim l = [] := by
  unfold jsTrim
  rw [dropWhile_all_ws l h]
  rfl

/- ### The claims -/

/-- Claim C1, counterexample: in the buffer `"a. b。"` the earliest Latin-style
boundary (index 1, length 2) precedes the earliest CJK-style boundary
(index 4), yet the loop cuts the first segment at the CJK boundary — the whole
buffer — and not at the Latin-style boundary `take (1 + 2)`. -/
theorem claim1_counterexample :
    enMatch "a. b。".data = some (1, 2) ∧
    cjkMatchIdx "a. b。".data = some 4 ∧
    (scanSegments "a. b。".data).1.head? = some "a. b。".data ∧
    some "a. b。".data ≠ some ("a. b。".data.take (1 + 2)) := by
  decide

/-- Claim C1, amended: the boundary scan gives the CJK-style pattern absolute
priority — whenever it matches anywhere in the buffer the segment is cut at
the earliest CJK-style boundary, even when a Latin-style boundary occurs
earlier; the Latin-style match determines the cut only when the CJK pattern
matches nowhere in the buffer. -/
theorem claim1_cjk_priority_boundary (l l' : List Char) (j i n : Nat)
    (hc : cjkMatchIdx l = some j)
    (hc' : cjkMatchIdx l' = none) (he' : enMatch l' = some (i, n)) :
    (scanSegments l).1.head? = some (l.take (j + 1)) ∧
    (scanSegments l').1.head? = some (l'.take (i + n)) := by
  constructor
  · have hf : findBreak l = some (j, 1) := by unfold findBreak; rw [hc]
    exact scanSegments_head hf
  · have hf : findBreak l' = some (i, n) := by
      unfold findBreak; rw [hc']; exact he'
    exact scanSegments_head hf

/-- Witness for the amended claim C1 at concrete buffers. -/
theorem claim1_cjk_priority_boundary_witness :
    (scanSegments "a. b。".data).1.head? = some ("a. b。".data.take (4 + 1)) ∧
    (scanSegments "a. b".data).1.head? = some ("a. b".data.take (1 + 2)) :=
  claim1_cjk_priority_boundary "a. b。".data "a. b".data 4 1 2
    (by decide) (by decide) (by decide)

/-- Claim C2: for every total text and every fragmentation of it into chunks
fed through the segmentation loop, the concatenation of all emitted segments
followed by the final remainder equals the original text exactly. -/
theorem claim2_fragmentation_invariance (text : List Char)
    (chunks : List (List Char)) (h : chunks.flatten = text) :
    (processChunks [] chunks).1.flatten ++ (processChunks [] chunks).2 =
      text := by
  rw [processChunks_flatten chunks []]
  simpa using h

/-- Witness for claim C2 on a concrete fragmentation. -/
theorem claim2_fragmentation_invariance_witness :
    (processChunks [] ["Hel".data, "lo. Wo".data, "rld".data]).1.flatten ++
      (processChunks [] ["Hel".data, "lo. Wo".data, "rld".data]).2 =
      "Hello. World".data :=
  claim2_fragmentation_invariance "Hello. World".data
    ["Hel".data, "lo. Wo".data, "rld".data] (by decide)

/-- Claim C3: an error whose name is `AbortError` (the deliberate abort)
produces no pushed event at all — neither when the `fetch` itself rejects nor
when the read loop throws after some chunks: the pushes are exactly the
already-emitted segments.  Any other error produces exactly one diagnostic
push (`服务错误: ...`) after the segments, before the producer stops. -/
theorem claim3_abort_silent_other_errors_diagnostic
    (input : ChatInput) (e e' : JsError) (r r' : UpstreamResponse)
    (hv : jsTrim input.message ≠ [])
    (hab : e.name = abortName) (hnab : e'.name ≠ abortName)
    (hok : r.ok = true) (he : r.readError = some e)
    (hok' : r'.ok = true) (he' : r'.readError = some e') :
    pushes (chatStreamProducer input (FetchOutcome.failure e)) = [] ∧
    pushes (chatStreamProducer input (FetchOutcome.success r)) =
      (processChunks [] r.chunks).1 ∧
    pushes (chatStreamProducer input (FetchOutcome.failure e')) =
      [serviceErrorMsg e'] ∧
    pushes (chatStreamProducer input (FetchOutcome.success r')) =
      (processChunks [] r'.chunks).1 ++ [serviceErrorMsg e'] := by
  refine ⟨?_, ?_, ?_, ?_⟩
  · simp [chatStreamProducer, hv, hab, pushes_append, pushes_cons_fetch,
      pushes_cons_stop, pushes_nil]
  · simp [chatStreamProducer, streamBody, hv, hab, hok, he, pushes_append,
      pushes_map_push, pushes_cons_fetch, pushes_cons_getReader,
      pushes_cons_release, pushes_cons_stop, pushes_nil]
  · simp [chatStreamProducer, hv, hnab, pushes_append, pushes_cons_fetch,
      pushes_cons_push, pushes_cons_stop, pushes_nil]
  · simp [chatStreamProducer, streamBody, hv, hnab, hok', he', pushes_append,
      pushes_map_push, pushes_cons_fetch, pushes_cons_getReader,
      pushes_cons_release, pushes_cons_push, pushes_cons_stop, pushes_nil]

/-- Witness for claim C3 with a concrete abort error and a concrete other
error. -/
theorem claim3_abort_silent_other_errors_diagnostic_witness :
    pushes (chatStreamProducer ⟨"hi".data⟩
        (FetchOutcome.failure ⟨abortName, []⟩)) = [] ∧
    pushes (chatStreamProducer ⟨"hi".data⟩
        (FetchOutcome.success ⟨true, 200, [], none, ["x".data],
          some ⟨abortName, []⟩⟩)) =
      (processChunks [] (["x".data] : List (List Char))).1 ∧
    pushes (chatStreamProducer ⟨"hi".data⟩
        (FetchOutcome.failure ⟨"TypeError".data, "net".data⟩)) =
      [serviceErrorMsg ⟨"TypeError".data, "net".data⟩] ∧
    pushes (chatStreamProducer ⟨"hi".data⟩
        (FetchOutcome.success ⟨true, 200, [], none, ["x".data],
          some ⟨"TypeError".data, "net".data⟩⟩)) =
      (processChunks [] (["x".data] : List (List Char))).1 ++
        [serviceErrorMsg ⟨"TypeError".data, "net".data⟩] :=
  claim3_abort_silent_other_errors_diagnostic ⟨"hi".data⟩
    ⟨abortName, []⟩ ⟨"TypeError".data, "net".data⟩
    ⟨true, 200, [], none, ["x".data], some ⟨abortName, []⟩⟩
    ⟨true, 200, [], none, ["x".data], some ⟨"TypeError".data, "net".data⟩⟩
    (by decide) rfl (by decide) rfl rfl rfl rfl

/-- Claim C4: a non-success upstream status yields exactly the trace
`fetch`, one diagnostic push whose message contains the status code, `stop` —
and the reader (the streaming read loop) is never acquired. -/
theorem claim4_upstream_error_single_diagnostic
    (input : ChatInput) (r : UpstreamResponse)
    (hv : jsTrim input.message ≠ []) (hok : r.ok = false) :
    chatStreamProducer input (FetchOutcome.success r) =
      [Ev.fetchCall, Ev.push (upstreamErrorMsg r), Ev.stopCall] ∧
    (∃ pre post,
      upstreamErrorMsg r = pre ++ (toString r.status).data ++ post) ∧
    Ev.getReader ∉ chatStreamProducer input (FetchOutcome.success r) := by
  have htrace : chatStreamProducer input (FetchOutcome.success r) =
      [Ev.fetchCall, Ev.push (upstreamErrorMsg r), Ev.stopCall] := by
    simp [chatStreamProducer, hv, hok]
  refine ⟨htrace, ⟨"API错误: ".data, " - ".data ++ upstreamErrorDetail r,
    ?_⟩, ?_⟩
  · simp [upstreamErrorMsg, List.append_assoc]
  · rw [htrace]
    simp

/-- Witness for claim C4 with a concrete 401 response. -/
theorem claim4_upstream_error_single_diagnostic_witness :
    chatStreamProducer ⟨"hi".data⟩
        (FetchOutcome.success ⟨false, 401, "Unauthorized".data, none, [], none⟩) =
      [Ev.fetchCall,
        Ev.push (upstreamErrorMsg
          ⟨false, 401, "Unauthorized".data, none, [], none⟩), Ev.stopCall] ∧
    (∃ pre post,
      upstreamErrorMsg ⟨false, 401, "Unauthorized".data, none, [], none⟩ =
        pre ++ (toString (401 : Nat)).data ++ post) ∧
    Ev.getReader ∉ chatStreamProducer ⟨"hi".data⟩
        (FetchOutcome.success
          ⟨false, 401, "Unauthorized".data, none, [], none⟩) :=
  claim4_upstream_error_single_diagnostic ⟨"hi".data⟩
    ⟨false, 401, "Unauthorized".data, none, [], none⟩ (by decide) rfl

/-- Claim C5: an input whose message is empty or whitespace-only is rejected
before any upstream call: the trace is exactly one diagnostic push followed by
`stop`, and contains no `fetch` call, whatever the upstream would have
answered. -/
theorem claim5_whitespace_rejected_before_upstream
    (input : ChatInput) (f : FetchOutcome)
    (hw : ∀ c ∈ input.message, isJsWhitespace c = true) :
    chatStreamProducer input f = [Ev.push emptyInputMsg, Ev.stopCall] ∧
    Ev.fetchCall ∉ chatStreamProducer input f := by
  have h : jsTrim input.message = [] := jsTrim_all_ws _ hw
  constructor
  · simp [chatStreamProducer, h]
  · simp [chatStreamProducer, h]

/-- Witness for claim C5 with a whitespace-only message. -/
theorem claim5_whitespace_rejected_before_upstream_witness :
    chatStreamProducer ⟨"  ".data⟩ (FetchOutcome.failure ⟨[], []⟩) =
      [Ev.push emptyInputMsg, Ev.stopCall] ∧
    Ev.fetchCall ∉
      chatStreamProducer ⟨"  ".data⟩ (FetchOutcome.failure ⟨[], []⟩) :=
  claim5_whitespace_rejected_before_upstream ⟨"  ".data⟩
    (FetchOutcome.failure ⟨[], []⟩) (by decide)

/-- Claim C6: feeding the single fragment `"Hello. World"` with an empty prior
remainder yields exactly one completed segment `"Hello. "` (the boundary
includes the trailing space) and leaves `"World"` as the new remainder. -/
theorem claim6_hello_world_segmentation :
    feed [] "Hello. World".data = (["Hello. ".data], "World".data) := by
  decide

/-- Claim C7: on every exit path of the read loop — clean end of data (with or
without a remainder flush), thrown read error, abort-triggered error — the
reader lock is released exactly once. -/
theorem claim7_release_exactly_once (input : ChatInput) (r : UpstreamResponse)
    (hv : jsTrim input.message ≠ []) (hok : r.ok = true) :
    countRelease (chatStreamProducer input (FetchOutcome.success r)) = 1 := by
  cases he : r.readError with
  | none =>
      by_cases hrem : (processChunks [] r.chunks).2 = []
      · simp [chatStreamProducer, streamBody, hv, hok, he, hrem,
          countRelease_append, countRelease_map_push, countRelease_cons_fetch,
          countRelease_cons_getReader, countRelease_cons_push,
          countRelease_cons_release, countRelease_cons_stop, countRelease_nil]
      · simp [chatStreamProducer, streamBody, hv, hok, he, hrem,
          countRelease_append, countRelease_map_push, countRelease_cons_fetch,
          countRelease_cons_getReader, countRelease_cons_push,
          countRelease_cons_release, countRelease_cons_stop, countRelease_nil]
  | some e =>
      by_cases habt : e.name = abortName
      · simp [chatStreamProducer, streamBody, hv, hok, he, habt,
          countRelease_append, countRelease_map_push, countRelease_cons_fetch,
          countRelease_cons_getReader, countRelease_cons_push,
          countRelease_cons_release, countRelease_cons_stop, countRelease_nil]
      · simp [chatStreamProducer, streamBody, hv, hok, he, habt,
          countRelease_append, countRelease_map_push, countRelease_cons_fetch,
          countRelease_cons_getReader, countRelease_cons_push,
          countRelease_cons_release, countRelease_cons_stop, countRelease_nil]

/-- Witness for claim C7 on a concrete successful stream. -/
theorem claim7_release_exactly_once_witness :
    countRelease (chatStreamProducer ⟨"hi".data⟩
      (FetchOutcome.success ⟨true, 200, [], none, ["a。x".data], none⟩)) = 1 :=
  claim7_release_exactly_once ⟨"hi".data⟩
    ⟨true, 200, [], none, ["a。x".data], none⟩ (by decide) rfl

/-- Claim C8: no emitted segment is ever the empty string — every segment
produced by the scanning loop is non-empty, and the end-of-stream flush adds a
segment only when the remainder is non-empty (an empty remainder leaves the
emitted list untouched). -/
theorem claim8_segments_never_empty
    (chunks chunksB : List (List Char)) (s : List Char)
    (hs : s ∈ runSegmentation chunks)
    (hr : (processChunks [] chunksB).2 = []) :
    s ≠ [] ∧ runSegmentation chunksB = (processChunks [] chunksB).1 := by
  refine ⟨runSegmentation_ne_nil chunks s hs, ?_⟩
  unfold runSegmentation
  rw [if_pos hr]

/-- Witness for claim C8 on a concrete stream. -/
theorem claim8_segments_never_empty_witness :
    "a。".data ≠ [] ∧
    runSegmentation ["a。".data] = (processChunks [] ["a。".data]).1 :=
  claim8_segments_never_empty ["a。".data] ["a。".data] "a。".data
    (by decide) (by decide)

/-- Claim C9: whenever the scan finds a break, the extracted prefix has length
`breakPos + breakSize ≥ 1` and the retained buffer strictly shrinks, so the
inner loop exits after finitely many iterations on every finite buffer. -/
theorem claim9_scan_strictly_shrinks (l : List Char) (p s : Nat)
    (h : findBreak l = some (p, s)) :
    1 ≤ p + s ∧ (l.take (p + s)).length = p + s ∧
      (l.drop (p + s)).length < l.length := by
  obtain ⟨h1, hb⟩ := findBreak_bounds h
  refine ⟨by omega, ?_, ?_⟩
  · rw [List.length_take]; omega
  · rw [List.length_drop]; omega

/-- Witness for claim C9 at a concrete buffer. -/
theorem claim9_scan_strictly_shrinks_witness :
    1 ≤ 1 + 1 ∧ ("a。".data.take (1 + 1)).length = 1 + 1 ∧
      ("a。".data.drop (1 + 1)).length < "a。".data.length :=
  claim9_scan_strictly_shrinks "a。".data 1 1 (by decide)

/-- Claim C10: every segment extracted by the scanning loop ends at a detected
boundary — its last character is one of `。？！` or a newline, or its last two
characters are a Latin sentence-final mark followed by whitespace; and the
Latin pattern's bare-newline alternative never determines a break: when the
CJK pattern has no match, the selected break always has size 2. -/
theorem claim10_segments_end_at_boundary (l s l' : List Char) (p sz : Nat)
    (hs : s ∈ (scanSegments l).1)
    (hc' : cjkMatchIdx l' = none) (hf' : findBreak l' = some (p, sz)) :
    endsAtBoundary s = true ∧ sz = 2 :=
  ⟨scanSegmentsFuel_ends l.length l s hs, latin_bare_newline_unused hc' hf'⟩

/-- Witness for claim C10 at concrete buffers. -/
theorem claim10_segments_end_at_boundary_witness :
    endsAtBoundary "a。".data = true ∧ (2 : Nat) = 2 :=
  claim10_segments_end_at_boundary "a。b".data "a。".data "a. b".data 1 2
    (by decide) (by decide) (by decide)

end Worker
